import Mathlib

/-!
Shallow embedding of the contact store of `src/contact_manager.py`
(class `ContactManager`).

Modelling conventions:
* Python strings are Lean `String`s viewed as lists of characters
  (`String.data`); `lower`/`upper` are modelled per character with
  `Char.toLower`/`Char.toUpper` (the repository only manipulates ASCII
  field names and ASCII menu text, so the ASCII case table suffices).
* `datetime.now().isoformat()` is nondeterministic, so every mutating
  operation takes the produced timestamp string as an explicit `now`
  argument.
* Exceptions (`raise ValueError msg`) become `Except String` results
  carrying the message; a raising call leaves the state untouched, which
  in the state-passing embedding means no new state is produced.
* Disk persistence (`save_contacts`) only mirrors the in-memory list and
  is not observable through any of the verified operations, so the state
  is the pair `(contacts, next_id)`.
* Python's regex `\d` and the character class `[a-zA-Z]` are modelled
  over ASCII via `Char.isDigit` / `Char.isAlpha`.
-/

namespace ContactApp

/-- Characters admitted by the local-part class `[a-zA-Z0-9._%+-]` of the
email regex in `validate_email`. -/
def isLocalChar (c : Char) : Bool :=
  c.isAlpha || c.isDigit || c = '.' || c = '_' || c = '%' || c = '+' || c = '-'

/-- Characters admitted by the domain class `[a-zA-Z0-9.-]` of the email
regex in `validate_email`. -/
def isDomainChar (c : Char) : Bool :=
  c.isAlpha || c.isDigit || c = '.' || c = '-'

/-- Matcher for the regex fragment `[a-zA-Z]{2,}` applied to the whole
remaining input (the TLD part, anchored by `$`). -/
def tldCheck (t : List Char) : Bool :=
  decide (2 ≤ t.length) && t.all Char.isAlpha

/-- Matcher for the regex fragment `[a-zA-Z0-9.-]*\.[a-zA-Z]{2,}` applied
to the whole remaining input: some (possibly empty) run of domain
characters, a literal dot, then the TLD.  The two branches of the `||`
mirror the regex engine's choice of reading the next character either as
the literal `.` or as one more domain character. -/
def domTail : List Char → Bool
  | [] => false
  | c :: rest => (c = '.' && tldCheck rest) || (isDomainChar c && domTail rest)

/-- Matcher for `[a-zA-Z0-9.-]+\.[a-zA-Z]{2,}`: the part of the email
regex after the `@`. -/
def emailAfterAt : List Char → Bool
  | [] => false
  | c :: rest => isDomainChar c && domTail rest

/-- Matcher for `[a-zA-Z0-9._%+-]*@[a-zA-Z0-9.-]+\.[a-zA-Z]{2,}`:
a (possibly empty) run of local characters, the `@`, then the rest. -/
def localTail : List Char → Bool
  | [] => false
  | c :: rest => (c = '@' && emailAfterAt rest) || (isLocalChar c && localTail rest)

/-- Matcher for the full email regex body
`[a-zA-Z0-9._%+-]+@[a-zA-Z0-9.-]+\.[a-zA-Z]{2,}` against the whole
input. -/
def emailMatch : List Char → Bool
  | [] => false
  | c :: rest => isLocalChar c && localTail rest

/-- `ContactManager.validate_email`: Python's
`re.match(r'^[a-zA-Z0-9._%+-]+@[a-zA-Z0-9.-]+\.[a-zA-Z]{2,}$', email)`.
`re.match` anchors at the start, and `$` (without `re.MULTILINE`) matches
at the end of the string **or just before one trailing newline**, hence
the second disjunct. -/
def validate_email (email : String) : Bool :=
  emailMatch email.data ||
    (decide (email.data.getLast? = some '\n') && emailMatch email.data.dropLast)

/-- `ContactManager.validate_phone`: strip all non-digits
(`re.sub(r'\D', '', phone)`) and require at least 10 digits. -/
def validate_phone (phone : String) : Bool :=
  decide (10 ≤ (phone.data.filter Char.isDigit).length)

/-- One contact record: the dict built in `add_contact`, with its keys in
insertion order. -/
structure Contact where
  id : Int
  name : String
  email : String
  phone : String
  address : String
  company : String
  notes : String
  created_at : String
  updated_at : String
deriving DecidableEq, Repr

/-- The store state: the in-memory list `self.contacts` plus the counter
`self.next_id`. -/
structure ContactManager where
  contacts : List Contact
  next_id : Int
deriving DecidableEq, Repr

/-- `ContactManager.get_next_id`: `1` on an empty list, otherwise
`max(contact['id'] for contact in self.contacts) + 1`. -/
def get_next_id (contacts : List Contact) : Int :=
  match contacts.map Contact.id with
  | [] => 1
  | i :: is => is.foldl max i + 1

/-- A freshly constructed manager whose backing file is absent:
`load_contacts` yields `[]` and `get_next_id` yields `1`. -/
def ContactManager.fresh : ContactManager :=
  ⟨[], get_next_id []⟩

/-- `ContactManager.add_contact`.  Validates a truthy (non-empty) email
and phone, then appends the new record and bumps the counter.  The code
calls `datetime.now()` twice in the dict literal; both calls are modelled
by the single `now` argument. -/
def add_contact (m : ContactManager) (now name email phone address company notes : String) :
    Except String (ContactManager × Contact) :=
  if email ≠ "" && !(validate_email email) then
    .error "Invalid email format"
  else if phone ≠ "" && !(validate_phone phone) then
    .error "Invalid phone number format"
  else
    let contact : Contact :=
      ⟨m.next_id, name, email, phone, address, company, notes, now, now⟩
    .ok (⟨m.contacts ++ [contact], m.next_id + 1⟩, contact)

/-- The keyword arguments of `ContactManager.update_contact`: one
optional value per key of the contact dict, plus the list of keyword
names that match no contact key (the loop's `if key in contact` skips
them). -/
structure UpdateFields where
  id : Option Int
  name : Option String
  email : Option String
  phone : Option String
  address : Option String
  company : Option String
  notes : Option String
  created_at : Option String
  updated_at : Option String
  unrecognized : List String
deriving DecidableEq, Repr

/-- The kwargs record with no keys at all. -/
def noUpdate : UpdateFields :=
  ⟨none, none, none, none, none, none, none, none, none, []⟩

/-- `'email' in kwargs and kwargs['email']` is truthy while
`validate_email` rejects it. -/
def emailArgBad (u : UpdateFields) : Bool :=
  match u.email with
  | some e => e ≠ "" && !(validate_email e)
  | none => false

/-- `'phone' in kwargs and kwargs['phone']` is truthy while
`validate_phone` rejects it. -/
def phoneArgBad (u : UpdateFields) : Bool :=
  match u.phone with
  | some p => p ≠ "" && !(validate_phone p)
  | none => false

/-- The loop `for key, value in kwargs.items(): if key in contact:
contact[key] = value` followed by `contact['updated_at'] = now`:
every supplied recognized key overwrites the field, unrecognized keys are
dropped, and `updated_at` ends up as `now` regardless. -/
def applyUpdate (c : Contact) (u : UpdateFields) (now : String) : Contact :=
  ⟨u.id.getD c.id, u.name.getD c.name, u.email.getD c.email, u.phone.getD c.phone,
   u.address.getD c.address, u.company.getD c.company, u.notes.getD c.notes,
   u.created_at.getD c.created_at, now⟩

/-- The `for contact in self.contacts` scan of `update_contact`: find the
first contact with the given id, validate the supplied email/phone there
(raising leaves every contact untouched), rewrite that contact in place,
and report it; `none` when no id matches. -/
def updateList (cs : List Contact) (contact_id : Int) (u : UpdateFields) (now : String) :
    Except String (Option (List Contact × Contact)) :=
  match cs with
  | [] => .ok none
  | c :: rest =>
    if c.id = contact_id then
      if emailArgBad u then .error "Invalid email format"
      else if phoneArgBad u then .error "Invalid phone number format"
      else
        let c' := applyUpdate c u now
        .ok (some (c' :: rest, c'))
    else
      match updateList rest contact_id u now with
      | .error e => .error e
      | .ok none => .ok none
      | .ok (some (rest', c')) => .ok (some (c :: rest', c'))

/-- `ContactManager.update_contact`: `.ok none` is the Python `return
None` (id not found), `.ok (some _)` returns the updated record, and
`.error` is the `ValueError` raised by validation. -/
def update_contact (m : ContactManager) (contact_id : Int) (u : UpdateFields) (now : String) :
    Except String (ContactManager × Option Contact) :=
  match updateList m.contacts contact_id u now with
  | .error e => .error e
  | .ok none => .ok (m, none)
  | .ok (some (cs', c')) => .ok (⟨cs', m.next_id⟩, some c')

/-- The `for i, contact in enumerate(self.contacts)` scan of
`delete_contact`: remove the first contact with the given id. -/
def deleteFirst : List Contact → Int → Option (List Contact)
  | [], _ => none
  | c :: rest, i =>
    if c.id = i then some rest
    else (deleteFirst rest i).map (fun cs => c :: cs)

/-- `ContactManager.delete_contact`: returns the new state and whether a
contact was removed. -/
def delete_contact (m : ContactManager) (contact_id : Int) : ContactManager × Bool :=
  match deleteFirst m.contacts contact_id with
  | some cs => (⟨cs, m.next_id⟩, true)
  | none => (m, false)

/-- `ContactManager.get_contact`: first contact with the given id. -/
def get_contact (m : ContactManager) (contact_id : Int) : Option Contact :=
  m.contacts.find? (fun c => c.id = contact_id)

/-- The sort key `x['name'].lower()` of `list_contacts` and
`search_contacts`, as a character list. -/
def nameKey (c : Contact) : List Char :=
  c.name.data.map Char.toLower

/-- Lexicographic comparison of character lists by code point: the order
Python uses on strings. -/
def lexLe : List Char → List Char → Bool
  | [], _ => true
  | _ :: _, [] => false
  | a :: as, b :: bs =>
    if a.toNat < b.toNat then true
    else if b.toNat < a.toNat then false
    else lexLe as bs

/-- The comparison `Python sorted` applies between two contacts. -/
def contactLe (a b : Contact) : Bool :=
  lexLe (nameKey a) (nameKey b)

/-- Insert a contact in front of the first element it compares `≤` to.
Folded over the list front-to-back this is a stable sort, matching
Python's stable `sorted`. -/
def insertLe (a : Contact) : List Contact → List Contact
  | [] => [a]
  | b :: l => if contactLe a b then a :: b :: l else b :: insertLe a l

/-- `sorted(cs, key=lambda x: x['name'].lower())`: a stable sort by the
lowercased name.  (Python's timsort and this insertion sort agree because
a stable sort by a fixed key is unique.) -/
def sortByName : List Contact → List Contact
  | [] => []
  | c :: cs => insertLe c (sortByName cs)

/-- `ContactManager.list_contacts`. -/
def list_contacts (m : ContactManager) : List Contact :=
  sortByName m.contacts

/-- Python's substring test `q in s` on character lists: `q` is a
contiguous run of `s`. -/
def containsSub (q : List Char) : List Char → Bool
  | [] => q.isEmpty
  | c :: rest => q.isPrefixOf (c :: rest) || containsSub q rest

/-- The match condition of `search_contacts` for one contact: the
(already lowercased) query occurs in the lowercased name, email, phone,
company or notes. -/
def contactMatches (q : List Char) (c : Contact) : Bool :=
  containsSub q (c.name.data.map Char.toLower) ||
  containsSub q (c.email.data.map Char.toLower) ||
  containsSub q (c.phone.data.map Char.toLower) ||
  containsSub q (c.company.data.map Char.toLower) ||
  containsSub q (c.notes.data.map Char.toLower)

/-- `ContactManager.search_contacts`: lowercase the query, keep the
matching contacts in order, sort like `list_contacts`. -/
def search_contacts (m : ContactManager) (query : String) : List Contact :=
  sortByName (m.contacts.filter (contactMatches (query.data.map Char.toLower)))

/-- The result dict of `get_stats`.  `by_letter` is the Python dict as an
association list in key-insertion order. -/
structure Stats where
  total : Nat
  with_email : Nat
  with_phone : Nat
  with_company : Nat
  by_letter : List (Char × Nat)
deriving DecidableEq, Repr

/-- `by_letter[first_letter] = by_letter.get(first_letter, 0) + 1` on a
dict kept in key-insertion order. -/
def bumpLetter (k : Char) : List (Char × Nat) → List (Char × Nat)
  | [] => [(k, 1)]
  | (k', n) :: rest =>
    if k' = k then (k', n + 1) :: rest else (k', n) :: bumpLetter k rest

/-- The `for contact in self.contacts` grouping loop of `get_stats`:
`contact['name'][0]` raises `IndexError` on an empty name, modelled by
`none`. -/
def byLetterAcc : List Contact → List (Char × Nat) → Option (List (Char × Nat))
  | [], acc => some acc
  | c :: rest, acc =>
    match c.name.data with
    | [] => none
    | ch :: _ => byLetterAcc rest (bumpLetter ch.toUpper acc)

/-- `ContactManager.get_stats`: `none` models the `IndexError` a contact
with an empty name causes in the grouping loop. -/
def get_stats (m : ContactManager) : Option Stats :=
  match byLetterAcc m.contacts [] with
  | none => none
  | some bl =>
    some ⟨m.contacts.length,
      (m.contacts.filter (fun c => c.email ≠ "")).length,
      (m.contacts.filter (fun c => c.phone ≠ "")).length,
      (m.contacts.filter (fun c => c.company ≠ "")).length,
      bl⟩

/-- Python's `sep.join(parts)`. -/
def joinSep (sep : String) : List String → String
  | [] => ""
  | [x] => x
  | x :: y :: rest => x ++ sep ++ joinSep sep (y :: rest)

/-- The escapes `json.dumps` applies inside a string literal.  (The
`\uXXXX` escapes for other control and non-ASCII characters are not
modelled; no verified property evaluates the JSON branch on such
characters.) -/
def jsonEscapeChar (c : Char) : List Char :=
  if c = '"' then ['\\', '"']
  else if c = '\\' then ['\\', '\\']
  else if c = '\n' then ['\\', 'n']
  else if c = '\t' then ['\\', 't']
  else if c = '\r' then ['\\', 'r']
  else [c]

/-- A JSON string literal for `s`. -/
def jsonStr (s : String) : String :=
  ⟨'"' :: s.data.foldr (fun c acc => jsonEscapeChar c ++ acc) ['"']⟩

/-- One contact as `json.dumps` renders it inside the list at
`indent=2`: keys in dict insertion order, two levels of indentation. -/
def contactJson (c : Contact) : String :=
  "  \x7b\n    \"id\": " ++ toString c.id ++
  ",\n    \"name\": " ++ jsonStr c.name ++
  ",\n    \"email\": " ++ jsonStr c.email ++
  ",\n    \"phone\": " ++ jsonStr c.phone ++
  ",\n    \"address\": " ++ jsonStr c.address ++
  ",\n    \"company\": " ++ jsonStr c.company ++
  ",\n    \"notes\": " ++ jsonStr c.notes ++
  ",\n    \"created_at\": " ++ jsonStr c.created_at ++
  ",\n    \"updated_at\": " ++ jsonStr c.updated_at ++
  "\n  \x7d"

/-- `json.dumps(self.contacts, indent=2)`. -/
def jsonDumpsContacts : List Contact → String
  | [] => "[]"
  | c :: cs => "[\n" ++ joinSep ",\n" ((c :: cs).map contactJson) ++ "\n]"

/-- The header cells of the CSV export. -/
def csvHeaders : List String :=
  ["ID", "Name", "Email", "Phone", "Company", "Address", "Notes", "Created"]

/-- `f'"{field}"'`: the double-quote wrapping of the CSV export (no
escaping of embedded quotes or commas, as in the code). -/
def csvQuote (s : String) : String :=
  "\"" ++ s ++ "\""

/-- One CSV data row: `str(id)`, the six quoted text fields in the
code's order, and `created_at[:19]`. -/
def csvRow (c : Contact) : String :=
  joinSep "," [toString c.id, csvQuote c.name, csvQuote c.email, csvQuote c.phone,
    csvQuote c.company, csvQuote c.address, csvQuote c.notes,
    ⟨c.created_at.data.take 19⟩]

/-- `ContactManager.export_contacts`: the `ValueError("Unsupported export
format")` of the final `else` becomes `.error`. -/
def export_contacts (m : ContactManager) (format_type : String) : Except String String :=
  if format_type = "json" then
    .ok (jsonDumpsContacts m.contacts)
  else if format_type = "csv" then
    if m.contacts = [] then
      .ok "No contacts to export"
    else
      .ok (joinSep "\n" (joinSep "," csvHeaders :: m.contacts.map csvRow))
  else
    .error "Unsupported export format"

/-- Everything up to the first newline of a string (the "first line" of
the CSV export). -/
def firstLine (s : String) : String :=
  ⟨s.data.takeWhile (fun c => c ≠ '\n')⟩

/-- Modelled from the spec's words, for comparison with the regex of
`validate_email`: the `local@domain.tld` shape — a non-empty local part
of letters/digits/`._%+-`, an `@`, a non-empty domain of
letters/digits/`.-`, a dot, and a TLD of at least 2 letters. -/
def EmailShape (s : List Char) : Prop :=
  ∃ l d t, s = l ++ '@' :: (d ++ '.' :: t) ∧
    l ≠ [] ∧ (∀ c ∈ l, isLocalChar c = true) ∧
    d ≠ [] ∧ (∀ c ∈ d, isDomainChar c = true) ∧
    2 ≤ t.length ∧ (∀ c ∈ t, c.isAlpha = true)

/-- How the menu loop and the web handlers run `add_contact`: a raised
`ValueError` is caught and the store keeps its previous state. -/
def addExec (m : ContactManager) (now name email phone address company notes : String) :
    ContactManager :=
  match add_contact m now name email phone address company notes with
  | .ok (m', _) => m'
  | .error _ => m

/-- How the callers run `update_contact`: a raised `ValueError` is caught
and the store keeps its previous state. -/
def updateExec (m : ContactManager) (contact_id : Int) (u : UpdateFields) (now : String) :
    ContactManager :=
  match update_contact m contact_id u now with
  | .ok (m', _) => m'
  | .error _ => m

/-- One successful `add_contact` or one `delete_contact` call: the
operation sequences quantified over by the id-uniqueness property. -/
inductive Step : ContactManager → ContactManager → Prop
  | add (m : ContactManager) (now name email phone address company notes : String)
      (m' : ContactManager) (c : Contact)
      (h : add_contact m now name email phone address company notes = Except.ok (m', c)) :
      Step m m'
  | del (m : ContactManager) (contact_id : Int) :
      Step m (delete_contact m contact_id).1

/-- States a fresh store can reach through successful `add_contact` and
`delete_contact` calls. -/
def Reachable (m : ContactManager) : Prop :=
  Relation.ReflTransGen Step ContactManager.fresh m

/-- One mutating store operation, run the way the callers run it
(exceptions caught, state kept). -/
inductive OpStep : ContactManager → ContactManager → Prop
  | add (m : ContactManager) (now name email phone address company notes : String) :
      OpStep m (addExec m now name email phone address company notes)
  | update (m : ContactManager) (contact_id : Int) (u : UpdateFields) (now : String) :
      OpStep m (updateExec m contact_id u now)
  | del (m : ContactManager) (contact_id : Int) :
      OpStep m (delete_contact m contact_id).1

/-- States a fresh store can reach through the store's mutating
operations. -/
def OpReachable (m : ContactManager) : Prop :=
  Relation.ReflTransGen OpStep ContactManager.fresh m

/-- One mutating operation whose arguments never supply an empty name:
`add_contact` with a non-empty name, `update_contact` whose kwargs do not
set `name` to the empty string, or `delete_contact`. -/
inductive GoodStep : ContactManager → ContactManager → Prop
  | add (m : ContactManager) (now name email phone address company notes : String)
      (hname : name ≠ "") :
      GoodStep m (addExec m now name email phone address company notes)
  | update (m : ContactManager) (contact_id : Int) (u : UpdateFields) (now : String)
      (hname : u.name ≠ some "") :
      GoodStep m (updateExec m contact_id u now)
  | del (m : ContactManager) (contact_id : Int) :
      GoodStep m (delete_contact m contact_id).1

/-- States a fresh store can reach when no caller ever supplies an empty
name. -/
def GoodReachable (m : ContactManager) : Prop :=
  Relation.ReflTransGen GoodStep ContactManager.fresh m

/-- The id bookkeeping invariant of a store: every stored id is below the
counter, and stored ids are pairwise distinct. -/
def IdsInv (m : ContactManager) : Prop :=
  (∀ c ∈ m.contacts, c.id < m.next_id) ∧
    m.contacts.Pairwise (fun a b => a.id ≠ b.id)

/-! ## Theorems -/

lemma tldCheck_iff (t : List Char) :
    tldCheck t = true ↔ 2 ≤ t.length ∧ ∀ c ∈ t, c.isAlpha = true := by
  simp [tldCheck, List.all_eq_true]

lemma domTail_iff (r : List Char) :
    domTail r = true ↔
      ∃ d t, r = d ++ '.' :: t ∧ (∀ c ∈ d, isDomainChar c = true) ∧ tldCheck t = true := by
  induction r with
  | nil =>
    constructor
    · intro h; cases h
    · rintro ⟨d, t, h, -, -⟩
      cases d <;> simp at h
  | cons c rest ih =>
    simp only [domTail, Bool.or_eq_true, Bool.and_eq_true, decide_eq_true_eq]
    constructor
    · rintro (⟨hc, ht⟩ | ⟨hd, hr⟩)
      · subst hc
        exact ⟨[], rest, rfl, by simp, ht⟩
      · obtain ⟨d, t, hr', hd', ht⟩ := ih.mp hr
        subst hr'
        refine ⟨c :: d, t, rfl, ?_, ht⟩
        intro x hx
        rcases List.mem_cons.mp hx with h | h
        · exact h ▸ hd
        · exact hd' x h
    · rintro ⟨d, t, h, hd, ht⟩
      cases d with
      | nil =>
        simp only [List.nil_append, List.cons.injEq] at h
        exact Or.inl ⟨h.1, h.2 ▸ ht⟩
      | cons c' d' =>
        simp only [List.cons_append, List.cons.injEq] at h
        obtain ⟨hc, hrest⟩ := h
        subst hc
        refine Or.inr ⟨hd c (by simp), ih.mpr ⟨d', t, hrest, ?_, ht⟩⟩
        intro x hx
        exact hd x (by simp [hx])

lemma emailAfterAt_iff (r : List Char) :
    emailAfterAt r = true ↔
      ∃ d t, r = d ++ '.' :: t ∧ d ≠ [] ∧ (∀ c ∈ d, isDomainChar c = true) ∧
        tldCheck t = true := by
  cases r with
  | nil =>
    constructor
    · intro h; cases h
    · rintro ⟨d, t, h, -, -, -⟩
      cases d <;> simp at h
  | cons c rest =>
    simp only [emailAfterAt, Bool.and_eq_true]
    constructor
    · rintro ⟨hc, hr⟩
      obtain ⟨d, t, hr', hd', ht⟩ := (domTail_iff rest).mp hr
      subst hr'
      refine ⟨c :: d, t, rfl, by simp, ?_, ht⟩
      intro x hx
      rcases List.mem_cons.mp hx with h | h
      · exact h ▸ hc
      · exact hd' x h
    · rintro ⟨d, t, h, hne, hd, ht⟩
      cases d with
      | nil => exact absurd rfl hne
      | cons c' d' =>
        simp only [List.cons_append, List.cons.injEq] at h
        obtain ⟨hc, hrest⟩ := h
        subst hc
        refine ⟨hd c (by simp), (domTail_iff rest).mpr ⟨d', t, hrest, ?_, ht⟩⟩
        intro x hx
        exact hd x (by simp [hx])

lemma localTail_iff (r : List Char) :
    localTail r = true ↔
      ∃ l rest, r = l ++ '@' :: rest ∧ (∀ c ∈ l, isLocalChar c = true) ∧
        emailAfterAt rest = true := by
  induction r with
  | nil =>
    constructor
    · intro h; cases h
    · rintro ⟨l, rest, h, -, -⟩
      cases l <;> simp at h
  | cons c rest ih =>
    simp only [localTail, Bool.or_eq_true, Bool.and_eq_true, decide_eq_true_eq]
    constructor
    · rintro (⟨hc, ht⟩ | ⟨hl, hr⟩)
      · subst hc
        exact ⟨[], rest, rfl, by simp, ht⟩
      · obtain ⟨l, r', hr', hl', ht⟩ := ih.mp hr
        subst hr'
        refine ⟨c :: l, r', rfl, ?_, ht⟩
        intro x hx
        rcases List.mem_cons.mp hx with h | h
        · exact h ▸ hl
        · exact hl' x h
    · rintro ⟨l, r', h, hl, ht⟩
      cases l with
      | nil =>
        simp only [List.nil_append, List.cons.injEq] at h
        exact Or.inl ⟨h.1, h.2 ▸ ht⟩
      | cons c' l' =>
        simp only [List.cons_append, List.cons.injEq] at h
        obtain ⟨hc, hrest⟩ := h
        subst hc
        refine Or.inr ⟨hl c (by simp), ih.mpr ⟨l', r', hrest, ?_, ht⟩⟩
        intro x hx
        exact hl x (by simp [hx])

/-- The executable regex matcher recognizes exactly the
`local@domain.tld` shape described by the specification. -/
lemma emailMatch_iff_shape (s : List Char) : emailMatch s = true ↔ EmailShape s := by
  cases s with
  | nil =>
    constructor
    · intro h; cases h
    · rintro ⟨l, d, t, h, -, -⟩
      cases l <;> simp at h
  | cons c rest =>
    simp only [emailMatch, Bool.and_eq_true]
    constructor
    · rintro ⟨hc, ht⟩
      obtain ⟨l, r', hr', hl', hafter⟩ := (localTail_iff rest).mp ht
      obtain ⟨d, t, hd', hdne, hdchars, htld⟩ := (emailAfterAt_iff r').mp hafter
      subst hr'
      subst hd'
      obtain ⟨hlen, halpha⟩ := (tldCheck_iff t).mp htld
      refine ⟨c :: l, d, t, rfl, by simp, ?_, hdne, hdchars, hlen, halpha⟩
      intro x hx
      rcases List.mem_cons.mp hx with h | h
      · exact h ▸ hc
      · exact hl' x h
    · rintro ⟨l, d, t, h, hlne, hlchars, hdne, hdchars, hlen, halpha⟩
      cases l with
      | nil => exact absurd rfl hlne
      | cons c' l' =>
        simp only [List.cons_append, List.cons.injEq] at h
        obtain ⟨hc, hrest⟩ := h
        subst hc
        refine ⟨hlchars c (by simp), (localTail_iff rest).mpr
          ⟨l', d ++ '.' :: t, hrest, ?_, (emailAfterAt_iff _).mpr
            ⟨d, t, rfl, hdne, hdchars, (tldCheck_iff t).mpr ⟨hlen, halpha⟩⟩⟩⟩
        intro x hx
        exact hlchars x (by simp [hx])

/-- C1 counterexample: `validate_email` rejects the empty string (the
claim says the empty string is accepted), and it accepts `"a@b.co\n"`,
which does not have the `local@domain.tld` shape (Python's `$` also
matches just before one trailing newline). -/
theorem validate_email_claim_cex :
    validate_email "" = false ∧
    validate_email "a@b.co\n" = true ∧
    ¬ EmailShape "a@b.co\n".data := by
  refine ⟨by decide, by decide, fun h => ?_⟩
  have : emailMatch "a@b.co\n".data = true := (emailMatch_iff_shape _).mpr h
  simp [emailMatch, localTail, emailAfterAt, domTail, tldCheck, isLocalChar,
    isDomainChar] at this

/-- C1 (amended): `validate_email` returns false on the empty string
(callers skip validation of empty fields instead); it returns true on
`"a@b.co"` and false on `"not-an-email"`; and for every input it returns
true exactly when the input — or the input minus one trailing newline,
which Python's `$` anchor also accepts — has the `local@domain.tld`
shape (local part of letters/digits/`._%+-`, domain of
letters/digits/`.-`, TLD of at least 2 letters). -/
theorem validate_email_spec :
    validate_email "a@b.co" = true ∧ validate_email "not-an-email" = false ∧
    ∀ s : String, validate_email s = true ↔
      (EmailShape s.data ∨ ∃ u, s.data = u ++ ['\n'] ∧ EmailShape u) := by
  refine ⟨by decide, by decide, fun s => ?_⟩
  unfold validate_email
  rw [Bool.or_eq_true, Bool.and_eq_true, decide_eq_true_eq, emailMatch_iff_shape]
  constructor
  · rintro (h | ⟨hlast, hmatch⟩)
    · exact Or.inl h
    · obtain ⟨u, hu⟩ := List.getLast?_eq_some_iff.mp hlast
      refine Or.inr ⟨u, hu, ?_⟩
      have : s.data.dropLast = u := by rw [hu, List.dropLast_concat]
      exact (emailMatch_iff_shape _).mp (this ▸ hmatch)
  · rintro (h | ⟨u, hu, hshape⟩)
    · exact Or.inl h
    · refine Or.inr ⟨?_, ?_⟩
      · rw [hu]; exact List.getLast?_concat _
      · rw [hu, List.dropLast_concat]
        exact (emailMatch_iff_shape _).mpr hshape

/-- C2 counterexample: `validate_phone` rejects the empty string (fewer
than 10 digits), while the claim says the empty string is accepted. -/
theorem validate_phone_claim_cex : validate_phone "" = false := by
  decide

/-- C2 (amended): `validate_phone` returns false on the empty string
(callers skip validation of empty fields instead); it returns true on
`"555-123-4567"` and false on `"12345"`; and for every input — empty or
not — it returns true exactly when the input contains at least 10 digit
characters after all non-digit characters are discarded. -/
theorem validate_phone_spec :
    validate_phone "555-123-4567" = true ∧ validate_phone "12345" = false ∧
    ∀ s : String, validate_phone s = true ↔ 10 ≤ s.data.countP Char.isDigit := by
  refine ⟨by decide, by decide, fun s => ?_⟩
  simp [validate_phone, List.countP_eq_length_filter]

lemma updateList_email_error (cs : List Contact) (i : Int) (u : UpdateFields) (now : String)
    (hmem : ∃ c ∈ cs, c.id = i) (hbad : emailArgBad u = true) :
    updateList cs i u now = Except.error "Invalid email format" := by
  induction cs with
  | nil => simp at hmem
  | cons c rest ih =>
    obtain ⟨c0, hc0, hid⟩ := hmem
    by_cases h : c.id = i
    · simp [updateList, h, hbad]
    · rcases List.mem_cons.mp hc0 with h0 | h0
      · exact absurd (h0 ▸ hid) h
      · have hrec := ih ⟨c0, h0, hid⟩
        simp [updateList, h, hrec]

lemma updateList_phone_error (cs : List Contact) (i : Int) (u : UpdateFields) (now : String)
    (hmem : ∃ c ∈ cs, c.id = i) (hok : emailArgBad u = false) (hbad : phoneArgBad u = true) :
    updateList cs i u now = Except.error "Invalid phone number format" := by
  induction cs with
  | nil => simp at hmem
  | cons c rest ih =>
    obtain ⟨c0, hc0, hid⟩ := hmem
    by_cases h : c.id = i
    · simp [updateList, h, hok, hbad]
    · rcases List.mem_cons.mp hc0 with h0 | h0
      · exact absurd (h0 ▸ hid) h
      · have hrec := ih ⟨c0, h0, hid⟩
        simp [updateList, h, hrec]

/-- C4 counterexample: `updateContact` on an id that is not in the store
returns the not-found sentinel — not a `ValidationError` — even though
the supplied email `"bad"` is non-empty and fails the format rules. -/
theorem validation_error_claim_cex :
    ("bad" : String) ≠ "" ∧ validate_email "bad" = false ∧
    update_contact ContactManager.fresh 999
      ⟨none, none, some "bad", none, none, none, none, none, none, []⟩ "t" =
      Except.ok (ContactManager.fresh, none) := by
  exact ⟨by decide, by decide, rfl⟩

/-- C4 (amended): when a supplied non-empty email or phone fails the
format rules, `add_contact` always raises `ValueError` naming the failing
field, and `update_contact` does so whenever some contact carries the
requested id (when no contact does, it returns the not-found sentinel
without validating).  In every raising case the store is unchanged. -/
theorem validation_failure_rejects_and_preserves :
    (∀ m now name email phone address company notes,
      email ≠ "" → validate_email email = false →
      add_contact m now name email phone address company notes =
        Except.error "Invalid email format" ∧
      addExec m now name email phone address company notes = m) ∧
    (∀ m now name email phone address company notes,
      (email = "" ∨ validate_email email = true) →
      phone ≠ "" → validate_phone phone = false →
      add_contact m now name email phone address company notes =
        Except.error "Invalid phone number format" ∧
      addExec m now name email phone address company notes = m) ∧
    (∀ m contact_id u now, (∃ c ∈ m.contacts, c.id = contact_id) →
      emailArgBad u = true →
      update_contact m contact_id u now = Except.error "Invalid email format" ∧
      updateExec m contact_id u now = m) ∧
    (∀ m contact_id u now, (∃ c ∈ m.contacts, c.id = contact_id) →
      emailArgBad u = false → phoneArgBad u = true →
      update_contact m contact_id u now = Except.error "Invalid phone number format" ∧
      updateExec m contact_id u now = m) := by
  refine ⟨?_, ?_, ?_, ?_⟩
  · intro m now name email phone address company notes h1 h2
    have hadd : add_contact m now name email phone address company notes =
        Except.error "Invalid email format" := by
      simp [add_contact, h1, h2]
    exact ⟨hadd, by simp [addExec, hadd]⟩
  · intro m now name email phone address company notes h1 h2 h3
    have hok : (email ≠ "" && !(validate_email email)) = false := by
      rcases h1 with h | h <;> simp [h]
    have hadd : add_contact m now name email phone address company notes =
        Except.error "Invalid phone number format" := by
      simp only [add_contact, hok, Bool.false_eq_true, if_false]
      simp [h2, h3]
    exact ⟨hadd, by simp [updateExec, addExec, hadd]⟩
  · intro m contact_id u now hmem hbad
    have hupd : update_contact m contact_id u now = Except.error "Invalid email format" := by
      simp [update_contact, updateList_email_error m.contacts contact_id u now hmem hbad]
    exact ⟨hupd, by simp [updateExec, hupd]⟩
  · intro m contact_id u now hmem hok hbad
    have hupd : update_contact m contact_id u now =
        Except.error "Invalid phone number format" := by
      simp [update_contact, updateList_phone_error m.contacts contact_id u now hmem hok hbad]
    exact ⟨hupd, by simp [updateExec, hupd]⟩

/-- C4 witness: the amended theorem at concrete inputs — adding
`name="Bob"`, `email="bad"` to a fresh store raises the email error and
leaves the store unchanged, and updating an existing contact with a bad
email raises the same error. -/
theorem validation_failure_rejects_and_preserves_witness :
    add_contact ContactManager.fresh "t" "Bob" "bad" "" "" "" "" =
      Except.error "Invalid email format" ∧
    addExec ContactManager.fresh "t" "Bob" "bad" "" "" "" "" = ContactManager.fresh ∧
    update_contact ⟨[⟨1, "Bob", "", "", "", "", "", "t", "t"⟩], 2⟩ 1
      ⟨none, none, some "bad", none, none, none, none, none, none, []⟩ "s" =
      Except.error "Invalid email format" := by
  obtain ⟨p1, p2, p3, p4⟩ := validation_failure_rejects_and_preserves
  have h1 := p1 ContactManager.fresh "t" "Bob" "bad" "" "" "" "" (by decide) (by decide)
  have h3 := p3 ⟨[⟨1, "Bob", "", "", "", "", "", "t", "t"⟩], 2⟩ 1
    ⟨none, none, some "bad", none, none, none, none, none, none, []⟩ "s"
    ⟨⟨1, "Bob", "", "", "", "", "", "t", "t"⟩, by simp, rfl⟩ (by decide)
  exact ⟨h1.1, h1.2, h3.1⟩

lemma updateList_unrec (cs : List Contact) (i : Int) (u : UpdateFields) (now : String)
    (ks : List String) :
    updateList cs i
      ⟨u.id, u.name, u.email, u.phone, u.address, u.company, u.notes,
       u.created_at, u.updated_at, ks⟩ now = updateList cs i u now := by
  obtain ⟨a, b, c, d, e, f, g, h, j, k⟩ := u
  induction cs with
  | nil => rfl
  | cons c0 rest ih =>
    simp only [updateList, ih]
    rfl

lemma updateList_ok_some (cs : List Contact) (i : Int) (u : UpdateFields) (now : String)
    (cs' : List Contact) (c' : Contact)
    (h : updateList cs i u now = Except.ok (some (cs', c'))) :
    ∃ pre c post, cs = pre ++ c :: post ∧ (∀ d ∈ pre, d.id ≠ i) ∧ c.id = i ∧
      c' = applyUpdate c u now ∧ cs' = pre ++ c' :: post := by
  induction cs generalizing cs' c' with
  | nil => simp [updateList] at h
  | cons c0 rest ih =>
    by_cases hid : c0.id = i
    · simp only [updateList, hid, if_true] at h
      cases he : emailArgBad u with
      | true => simp [he] at h
      | false =>
        cases hp : phoneArgBad u with
        | true => simp [he, hp] at h
        | false =>
          simp only [he, hp, Bool.false_eq_true, if_false, Except.ok.injEq,
            Option.some.injEq, Prod.mk.injEq] at h
          refine ⟨[], c0, rest, rfl, by simp, hid, h.2.symm, ?_⟩
          rw [List.nil_append, ← h.1, h.2]
    · simp only [updateList, hid, if_false] at h
      cases hrec : updateList rest i u now with
      | error e => rw [hrec] at h; cases h
      | ok o =>
        cases o with
        | none => rw [hrec] at h; cases h
        | some p =>
          obtain ⟨rest', c''⟩ := p
          rw [hrec] at h
          simp only [Except.ok.injEq, Option.some.injEq, Prod.mk.injEq] at h
          obtain ⟨hcs', hc''⟩ := h
          obtain ⟨pre, c, post, hsplit, hpre, hcid, hc', hrest'⟩ := ih rest' c'' hrec
          refine ⟨c0 :: pre, c, post, by rw [hsplit, List.cons_append], ?_,
            hcid, hc'' ▸ hc', ?_⟩
          · intro d hd
            rcases List.mem_cons.mp hd with hh | hh
            · exact hh ▸ hid
            · exact hpre d hh
          · rw [← hcs', hrest', hc'', List.cons_append]


/-- C3 counterexample: `update_contact` does change the contact's id when
the partial update itself carries the key `id` — the loop guard `if key
in contact` accepts `id` because it is a key of the contact dict.  Here
the contact with id `1` ends up with id `99`. -/
theorem update_contact_id_cex :
    update_contact ⟨[⟨1, "Bob", "", "", "", "", "", "t", "t"⟩], 2⟩ 1
      ⟨some 99, none, none, none, none, none, none, none, none, []⟩ "s" =
      Except.ok (⟨[⟨99, "Bob", "", "", "", "", "", "t", "s"⟩], 2⟩,
        some ⟨99, "Bob", "", "", "", "", "", "t", "s"⟩) := by
  rfl

/-- C3 (amended): on a successful `update_contact` the first contact with
the requested id is rewritten in place; exactly the supplied recognized
keys are applied (and that includes `id`, `created_at` and `updated_at`
when supplied, since the loop guard `if key in contact` accepts every
key of the dict), keys that are not recognized record fields are
ignored, `updated_at` is always refreshed, every field not named in the
update keeps its value, and the id is unchanged whenever the update does
not itself supply `id`. -/
theorem update_contact_frame :
    (∀ m contact_id u now ks,
      update_contact m contact_id
        ⟨u.id, u.name, u.email, u.phone, u.address, u.company, u.notes,
         u.created_at, u.updated_at, ks⟩ now = update_contact m contact_id u now) ∧
    (∀ m contact_id u now m' c',
      update_contact m contact_id u now = Except.ok (m', some c') →
      m'.next_id = m.next_id ∧ c'.updated_at = now ∧
      ∃ pre c post, m.contacts = pre ++ c :: post ∧ (∀ d ∈ pre, d.id ≠ contact_id) ∧
        c.id = contact_id ∧ m'.contacts = pre ++ c' :: post ∧
        (u.id = none → c'.id = c.id) ∧ (∀ v, u.id = some v → c'.id = v) ∧
        (u.name = none → c'.name = c.name) ∧ (∀ v, u.name = some v → c'.name = v) ∧
        (u.email = none → c'.email = c.email) ∧ (∀ v, u.email = some v → c'.email = v) ∧
        (u.phone = none → c'.phone = c.phone) ∧ (∀ v, u.phone = some v → c'.phone = v) ∧
        (u.address = none → c'.address = c.address) ∧
        (∀ v, u.address = some v → c'.address = v) ∧
        (u.company = none → c'.company = c.company) ∧
        (∀ v, u.company = some v → c'.company = v) ∧
        (u.notes = none → c'.notes = c.notes) ∧ (∀ v, u.notes = some v → c'.notes = v) ∧
        (u.created_at = none → c'.created_at = c.created_at) ∧
        (∀ v, u.created_at = some v → c'.created_at = v)) := by
  constructor
  · intro m contact_id u now ks
    unfold update_contact
    rw [updateList_unrec]
  · intro m contact_id u now m' c' h
    unfold update_contact at h
    cases hrec : updateList m.contacts contact_id u now with
    | error e => rw [hrec] at h; cases h
    | ok o =>
      cases o with
      | none =>
        rw [hrec] at h
        simp only [Except.ok.injEq, Prod.mk.injEq] at h
        cases h.2
      | some p =>
        obtain ⟨cs', c''⟩ := p
        rw [hrec] at h
        simp only [Except.ok.injEq, Prod.mk.injEq, Option.some.injEq] at h
        obtain ⟨hm', hc'⟩ := h
        rw [hc'] at hrec
        obtain ⟨pre, c, post, hsplit, hpre, hcid, happ, hcs'⟩ :=
          updateList_ok_some m.contacts contact_id u now cs' c' hrec
        subst happ
        refine ⟨by rw [← hm'], rfl, pre, c, post, hsplit, hpre, hcid,
          by rw [← hm', hcs'], ?_⟩
        unfold applyUpdate
        refine ⟨fun hn => by rw [hn]; rfl, fun v hv => by rw [hv]; rfl,
          fun hn => by rw [hn]; rfl, fun v hv => by rw [hv]; rfl,
          fun hn => by rw [hn]; rfl, fun v hv => by rw [hv]; rfl,
          fun hn => by rw [hn]; rfl, fun v hv => by rw [hv]; rfl,
          fun hn => by rw [hn]; rfl, fun v hv => by rw [hv]; rfl,
          fun hn => by rw [hn]; rfl, fun v hv => by rw [hv]; rfl,
          fun hn => by rw [hn]; rfl, fun v hv => by rw [hv]; rfl,
          fun hn => by rw [hn]; rfl, fun v hv => by rw [hv]; rfl⟩

/-- C3 witness: the amended theorem applied to a one-contact store and an
update supplying only `name`: the name is applied, `updated_at` is
refreshed, and the id keeps its value. -/
theorem update_contact_frame_witness :
    update_contact ⟨[⟨1, "Bob", "b@c.co", "", "", "", "", "t", "t"⟩], 2⟩ 1
      ⟨none, some "Robert", none, none, none, none, none, none, none, []⟩ "s" =
      Except.ok (⟨[⟨1, "Robert", "b@c.co", "", "", "", "", "t", "s"⟩], 2⟩,
        some ⟨1, "Robert", "b@c.co", "", "", "", "", "t", "s"⟩) ∧
    (⟨1, "Robert", "b@c.co", "", "", "", "", "t", "s"⟩ : Contact).updated_at = "s" ∧
    (⟨1, "Robert", "b@c.co", "", "", "", "", "t", "s"⟩ : Contact).name = "Robert" ∧
    (⟨1, "Robert", "b@c.co", "", "", "", "", "t", "s"⟩ : Contact).id =
      (⟨1, "Bob", "b@c.co", "", "", "", "", "t", "t"⟩ : Contact).id := by
  have h := update_contact_frame.2 ⟨[⟨1, "Bob", "b@c.co", "", "", "", "", "t", "t"⟩], 2⟩ 1
    ⟨none, some "Robert", none, none, none, none, none, none, none, []⟩ "s"
    ⟨[⟨1, "Robert", "b@c.co", "", "", "", "", "t", "s"⟩], 2⟩
    ⟨1, "Robert", "b@c.co", "", "", "", "", "t", "s"⟩ rfl
  obtain ⟨-, hupd, pre, c, post, hsplit, -, -, -, hid, -, -, hname, -⟩ := h
  have hc : c = ⟨1, "Bob", "b@c.co", "", "", "", "", "t", "t"⟩ := by
    cases pre with
    | nil =>
      simp only [List.nil_append, List.cons.injEq] at hsplit
      exact hsplit.1.symm
    | cons x xs => simp at hsplit
  exact ⟨rfl, hupd, hname "Robert" rfl, by rw [hid rfl, hc]⟩

lemma add_contact_ok (m : ContactManager) (now name email phone address company notes : String)
    (m' : ContactManager) (c : Contact)
    (h : add_contact m now name email phone address company notes = Except.ok (m', c)) :
    m'.contacts = m.contacts ++ [c] ∧ m'.next_id = m.next_id + 1 ∧ c.id = m.next_id := by
  unfold add_contact at h
  split at h
  · cases h
  · split at h
    · cases h
    · simp only [Except.ok.injEq, Prod.mk.injEq] at h
      obtain ⟨hm, hc⟩ := h
      subst hc
      rw [← hm]
      exact ⟨rfl, rfl, rfl⟩

lemma deleteFirst_sublist (cs : List Contact) (i : Int) (cs' : List Contact)
    (h : deleteFirst cs i = some cs') : cs'.Sublist cs := by
  induction cs generalizing cs' with
  | nil => cases h
  | cons c rest ih =>
    by_cases hid : c.id = i
    · simp only [deleteFirst, hid, if_true, Option.some.injEq] at h
      exact h ▸ List.sublist_cons_self c rest
    · simp only [deleteFirst, hid, if_false, Option.map_eq_some'] at h
      obtain ⟨cs'', hcs'', hmap⟩ := h
      exact hmap ▸ List.Sublist.cons₂ c (ih cs'' hcs'')

lemma step_preserves_idsInv (m m' : ContactManager) (hs : Step m m') (hi : IdsInv m) :
    IdsInv m' := by
  obtain ⟨hbound, hdist⟩ := hi
  cases hs with
  | add now name email phone address company notes mnext c h =>
    obtain ⟨hcs, hnext, hcid⟩ := add_contact_ok m now name email phone address company notes m' c h
    constructor
    · intro x hx
      rw [hcs] at hx
      rcases List.mem_append.mp hx with hx | hx
      · calc x.id < m.next_id := hbound x hx
          _ < m'.next_id := by rw [hnext]; omega
      · rw [List.mem_singleton.mp hx, hcid, hnext]
        omega
    · rw [hcs, List.pairwise_append]
      refine ⟨hdist, by simp, ?_⟩
      intro a ha b hb
      rw [List.mem_singleton.mp hb, hcid]
      exact ne_of_lt (hbound a ha)
  | del contact_id =>
    unfold delete_contact
    cases hdf : deleteFirst m.contacts contact_id with
    | none => exact ⟨hbound, hdist⟩
    | some cs' =>
      have hsub := deleteFirst_sublist m.contacts contact_id cs' hdf
      exact ⟨fun x hx => hbound x (hsub.subset hx), hdist.sublist hsub⟩

lemma step_next_id_le (m m' : ContactManager) (hs : Step m m') :
    m.next_id ≤ m'.next_id := by
  cases hs with
  | add now name email phone address company notes mnext c h =>
    obtain ⟨-, hnext, -⟩ := add_contact_ok m now name email phone address company notes m' c h
    omega
  | del contact_id =>
    unfold delete_contact
    cases hdf : deleteFirst m.contacts contact_id with
    | none => exact le_refl _
    | some cs' => exact le_refl _

lemma steps_next_id_le (m m' : ContactManager)
    (hs : Relation.ReflTransGen Step m m') : m.next_id ≤ m'.next_id := by
  induction hs with
  | refl => exact le_refl _
  | tail _ h ih => exact le_trans ih (step_next_id_le _ _ h)

lemma steps_preserve_idsInv (m m' : ContactManager)
    (hs : Relation.ReflTransGen Step m m') (hi : IdsInv m) : IdsInv m' := by
  induction hs with
  | refl => exact hi
  | tail _ h ih => exact step_preserves_idsInv _ _ h ih

lemma reachable_idsInv (m : ContactManager) (h : Reachable m) : IdsInv m := by
  refine steps_preserve_idsInv _ _ h ⟨?_, ?_⟩ <;> simp [ContactManager.fresh]

/-- C5: in every store state reachable from a fresh store by successful
`add_contact` and `delete_contact` calls, the stored ids are pairwise
distinct; every contact ever present gets an id strictly below the id of
any contact added later (so ids grow strictly across successive adds and
an id freed by a deletion is never reused); and a successful add places
its freshly numbered contact in the store. -/
theorem add_ids_unique_never_reused :
    ∀ m, Reachable m →
      m.contacts.Pairwise (fun a b => a.id ≠ b.id) ∧
      (∀ c, c ∈ m.contacts →
        ∀ m', Relation.ReflTransGen Step m m' →
          ∀ now name email phone address company notes m'' c'',
            add_contact m' now name email phone address company notes =
              Except.ok (m'', c'') → c.id < c''.id) ∧
      (∀ now name email phone address company notes m'' c'',
        add_contact m now name email phone address company notes =
          Except.ok (m'', c'') → c'' ∈ m''.contacts) := by
  intro m hreach
  have hinv := reachable_idsInv m hreach
  refine ⟨hinv.2, ?_, ?_⟩
  · intro c hc m' hsteps now name email phone address company notes m'' c'' hadd
    obtain ⟨-, -, hcid⟩ := add_contact_ok m' now name email phone address company notes m'' c'' hadd
    calc c.id < m.next_id := hinv.1 c hc
      _ ≤ m'.next_id := steps_next_id_le m m' hsteps
      _ = c''.id := hcid.symm
  · intro now name email phone address company notes m'' c'' hadd
    obtain ⟨hcs, -, -⟩ := add_contact_ok m now name email phone address company notes m'' c'' hadd
    rw [hcs]
    simp

/-- C5 witness: starting fresh, adding "Bob" yields id 1; the reached
state has pairwise distinct ids, and a subsequent add ("Ann", id 2) gets
a strictly larger id. -/
theorem add_ids_unique_never_reused_witness :
    ([(⟨1, "Bob", "", "", "", "", "", "t", "t"⟩ : Contact)]).Pairwise
      (fun a b => a.id ≠ b.id) ∧
    (⟨1, "Bob", "", "", "", "", "", "t", "t"⟩ : Contact).id <
      (⟨2, "Ann", "", "", "", "", "", "s", "s"⟩ : Contact).id := by
  have hstep : Step ContactManager.fresh ⟨[⟨1, "Bob", "", "", "", "", "", "t", "t"⟩], 2⟩ :=
    Step.add _ "t" "Bob" "" "" "" "" "" _ _ rfl
  have hreach : Reachable ⟨[⟨1, "Bob", "", "", "", "", "", "t", "t"⟩], 2⟩ :=
    Relation.ReflTransGen.tail Relation.ReflTransGen.refl hstep
  have h := add_ids_unique_never_reused _ hreach
  refine ⟨h.1, ?_⟩
  exact h.2.1 _ (by simp) _ Relation.ReflTransGen.refl "s" "Ann" "" "" "" "" "" _ _ rfl

lemma add_contact_ok_record (m : ContactManager)
    (now name email phone address company notes : String) (m' : ContactManager) (c : Contact)
    (h : add_contact m now name email phone address company notes = Except.ok (m', c)) :
    c = ⟨m.next_id, name, email, phone, address, company, notes, now, now⟩ := by
  unfold add_contact at h
  split at h
  · cases h
  · split at h
    · cases h
    · simp only [Except.ok.injEq, Prod.mk.injEq] at h
      exact h.2.symm

lemma addExec_mem (m : ContactManager)
    (now name email phone address company notes : String) (x : Contact)
    (hx : x ∈ (addExec m now name email phone address company notes).contacts) :
    x ∈ m.contacts ∨ x.name = name := by
  unfold addExec at hx
  cases hadd : add_contact m now name email phone address company notes with
  | error e => rw [hadd] at hx; exact Or.inl hx
  | ok p =>
    obtain ⟨m', c⟩ := p
    rw [hadd] at hx
    obtain ⟨hcs, -, -⟩ := add_contact_ok m now name email phone address company notes m' c hadd
    rw [hcs] at hx
    rcases List.mem_append.mp hx with hx | hx
    · exact Or.inl hx
    · right
      rw [List.mem_singleton.mp hx,
        add_contact_ok_record m now name email phone address company notes m' c hadd]

lemma updateExec_mem (m : ContactManager) (contact_id : Int) (u : UpdateFields) (now : String)
    (x : Contact) (hx : x ∈ (updateExec m contact_id u now).contacts) :
    x ∈ m.contacts ∨ ∃ y ∈ m.contacts, x = applyUpdate y u now := by
  unfold updateExec at hx
  cases hupd : update_contact m contact_id u now with
  | error e => rw [hupd] at hx; exact Or.inl hx
  | ok p =>
    obtain ⟨m', r⟩ := p
    rw [hupd] at hx
    unfold update_contact at hupd
    cases hrec : updateList m.contacts contact_id u now with
    | error e => rw [hrec] at hupd; cases hupd
    | ok o =>
      cases o with
      | none =>
        rw [hrec] at hupd
        simp only [Except.ok.injEq, Prod.mk.injEq] at hupd
        rw [← hupd.1] at hx
        exact Or.inl hx
      | some p2 =>
        obtain ⟨cs', c'⟩ := p2
        rw [hrec] at hupd
        simp only [Except.ok.injEq, Prod.mk.injEq] at hupd
        rw [← hupd.1] at hx
        obtain ⟨pre, c, post, hsplit, -, -, happ, hcs'⟩ :=
          updateList_ok_some m.contacts contact_id u now cs' c' hrec
        rw [hcs'] at hx
        rcases List.mem_append.mp hx with hx | hx
        · exact Or.inl (by rw [hsplit]; exact List.mem_append.mpr (Or.inl hx))
        · rcases List.mem_cons.mp hx with hx | hx
          · exact Or.inr ⟨c, by rw [hsplit]; simp, by rw [hx, happ]⟩
          · exact Or.inl (by rw [hsplit]; simp [hx])

lemma delete_mem (m : ContactManager) (contact_id : Int) (x : Contact)
    (hx : x ∈ (delete_contact m contact_id).1.contacts) : x ∈ m.contacts := by
  unfold delete_contact at hx
  cases hdf : deleteFirst m.contacts contact_id with
  | none => rw [hdf] at hx; exact hx
  | some cs' =>
    rw [hdf] at hx
    exact (deleteFirst_sublist m.contacts contact_id cs' hdf).subset hx

/-- C6 counterexample: `add_contact` does not reject an empty name, so a
store holding a contact with an empty name is reachable through the
store's own operations — here by one `add_contact` call on a fresh
store. -/
theorem empty_name_reachable_cex :
    OpReachable ⟨[⟨1, "", "", "", "", "", "", "t", "t"⟩], 2⟩ ∧
    (⟨1, "", "", "", "", "", "", "t", "t"⟩ : Contact) ∈
      (⟨[⟨1, "", "", "", "", "", "", "t", "t"⟩], 2⟩ : ContactManager).contacts ∧
    (⟨1, "", "", "", "", "", "", "t", "t"⟩ : Contact).name = "" := by
  refine ⟨?_, by simp, rfl⟩
  have hstep : OpStep ContactManager.fresh ⟨[⟨1, "", "", "", "", "", "", "t", "t"⟩], 2⟩ :=
    OpStep.add ContactManager.fresh "t" "" "" "" "" "" ""
  exact Relation.ReflTransGen.tail Relation.ReflTransGen.refl hstep

/-- C6 (amended): the store itself never enforces non-empty names; but in
every state reachable through the store's operations in which every
`add_contact` call supplied a non-empty name and no `update_contact` call
set `name` to the empty string (as the CLI caller guarantees by
pre-checking), every stored contact has a non-empty name. -/
theorem good_reachable_names_nonempty :
    ∀ m, GoodReachable m → ∀ c ∈ m.contacts, c.name ≠ "" := by
  intro m hreach
  induction hreach with
  | refl => intro c hc; simp [ContactManager.fresh] at hc
  | tail hsteps hstep ih =>
    intro x hx
    cases hstep with
    | add now name email phone address company notes hname =>
      rcases addExec_mem _ now name email phone address company notes x hx with h | h
      · exact ih x h
      · rw [h]; exact hname
    | update contact_id u now hname =>
      rcases updateExec_mem _ contact_id u now x hx with h | ⟨y, hy, hx'⟩
      · exact ih x h
      · rw [hx']
        unfold applyUpdate
        cases hu : u.name with
        | none => simpa [hu] using ih y hy
        | some v =>
          simp only [hu, Option.getD_some]
          intro hv
          exact hname (by rw [hu, hv])
    | del contact_id =>
      exact ih x (delete_mem _ contact_id x hx)

/-- C6 witness: the amended theorem applied to the state reached by one
add with the non-empty name "Bob": its stored name is non-empty. -/
theorem good_reachable_names_nonempty_witness :
    (⟨1, "Bob", "", "", "", "", "", "t", "t"⟩ : Contact).name ≠ "" := by
  have hstep : GoodStep ContactManager.fresh ⟨[⟨1, "Bob", "", "", "", "", "", "t", "t"⟩], 2⟩ :=
    GoodStep.add ContactManager.fresh "t" "Bob" "" "" "" "" "" (by decide)
  have hreach : GoodReachable ⟨[⟨1, "Bob", "", "", "", "", "", "t", "t"⟩], 2⟩ :=
    Relation.ReflTransGen.tail Relation.ReflTransGen.refl hstep
  exact good_reachable_names_nonempty _ hreach _ (by simp)

lemma lexLe_refl (a : List Char) : lexLe a a = true := by
  induction a with
  | nil => rfl
  | cons x xs ih => simp [lexLe, ih]

lemma lexLe_total (a b : List Char) : lexLe a b = true ∨ lexLe b a = true := by
  induction a generalizing b with
  | nil => exact Or.inl rfl
  | cons x xs ih =>
    cases b with
    | nil => exact Or.inr rfl
    | cons y ys =>
      rcases Nat.lt_trichotomy x.toNat y.toNat with hxy | hxy | hxy
      · exact Or.inl (by simp [lexLe, hxy])
      · have hxy' : ¬ x.toNat < y.toNat := by omega
        have hyx' : ¬ y.toNat < x.toNat := by omega
        rcases ih ys with h | h
        · exact Or.inl (by simp [lexLe, hxy', hyx', h])
        · exact Or.inr (by simp [lexLe, hxy', hyx', h])
      · exact Or.inr (by simp [lexLe, hxy])

lemma lexLe_trans (a b c : List Char) (hab : lexLe a b = true) (hbc : lexLe b c = true) :
    lexLe a c = true := by
  induction a generalizing b c with
  | nil => rfl
  | cons x xs ih =>
    cases b with
    | nil => simp [lexLe] at hab
    | cons y ys =>
      cases c with
      | nil => simp [lexLe] at hbc
      | cons z zs =>
        simp only [lexLe] at hab hbc ⊢
        rcases Nat.lt_trichotomy x.toNat y.toNat with hxy | hxy | hxy
        · rcases Nat.lt_trichotomy y.toNat z.toNat with hyz | hyz | hyz
          · rw [if_pos (by omega : x.toNat < z.toNat)]
          · rw [if_pos (by omega : x.toNat < z.toNat)]
          · rw [if_neg (by omega : ¬ y.toNat < z.toNat),
              if_pos (by omega : z.toNat < y.toNat)] at hbc
            cases hbc
        · rcases Nat.lt_trichotomy y.toNat z.toNat with hyz | hyz | hyz
          · rw [if_pos (by omega : x.toNat < z.toNat)]
          · rw [if_neg (by omega : ¬ x.toNat < z.toNat),
              if_neg (by omega : ¬ z.toNat < x.toNat)]
            rw [if_neg (by omega : ¬ x.toNat < y.toNat),
              if_neg (by omega : ¬ y.toNat < x.toNat)] at hab
            rw [if_neg (by omega : ¬ y.toNat < z.toNat),
              if_neg (by omega : ¬ z.toNat < y.toNat)] at hbc
            exact ih ys zs hab hbc
          · rw [if_neg (by omega : ¬ y.toNat < z.toNat),
              if_pos (by omega : z.toNat < y.toNat)] at hbc
            cases hbc
        · rw [if_neg (by omega : ¬ x.toNat < y.toNat),
            if_pos (by omega : y.toNat < x.toNat)] at hab
          cases hab

lemma contactLe_of_not_le (a b : Contact) (h : ¬ contactLe a b = true) :
    contactLe b a = true := by
  rcases lexLe_total (nameKey a) (nameKey b) with h' | h'
  · exact absurd h' h
  · exact h'

lemma nameKey_ne_of_not_le (a b : Contact) (h : ¬ contactLe a b = true) :
    nameKey b ≠ nameKey a := by
  intro hk
  exact h (by unfold contactLe; rw [hk]; exact lexLe_refl _)

lemma insertLe_perm (a : Contact) (l : List Contact) : (insertLe a l).Perm (a :: l) := by
  induction l with
  | nil => exact List.Perm.refl _
  | cons b bs ih =>
    by_cases hab : contactLe a b = true
    · simp only [insertLe, if_pos hab]
      exact List.Perm.refl _
    · simp only [insertLe, if_neg hab]
      exact List.Perm.trans (List.Perm.cons b ih) (List.Perm.swap a b bs)

lemma sortByName_perm (l : List Contact) : (sortByName l).Perm l := by
  induction l with
  | nil => exact List.Perm.refl _
  | cons c cs ih =>
    exact List.Perm.trans (insertLe_perm c (sortByName cs)) (List.Perm.cons c ih)

lemma mem_sortByName (x : Contact) (l : List Contact) : x ∈ sortByName l ↔ x ∈ l :=
  (sortByName_perm l).mem_iff

lemma insertLe_sorted (a : Contact) (l : List Contact)
    (h : l.Pairwise (fun x y => contactLe x y = true)) :
    (insertLe a l).Pairwise (fun x y => contactLe x y = true) := by
  induction l with
  | nil => simp [insertLe]
  | cons b bs ih =>
    obtain ⟨hb, hbs⟩ := List.pairwise_cons.mp h
    by_cases hab : contactLe a b = true
    · simp only [insertLe, if_pos hab]
      refine List.Pairwise.cons ?_ h
      intro y hy
      rcases List.mem_cons.mp hy with hy | hy
      · exact hy ▸ hab
      · exact lexLe_trans _ _ _ hab (hb y hy)
    · simp only [insertLe, if_neg hab]
      refine List.Pairwise.cons ?_ (ih hbs)
      intro y hy
      rcases List.mem_cons.mp ((insertLe_perm a bs).mem_iff.mp hy) with hy2 | hy2
      · rw [hy2]
        exact contactLe_of_not_le a b hab
      · exact hb y hy2

lemma sortByName_sorted (l : List Contact) :
    (sortByName l).Pairwise (fun x y => contactLe x y = true) := by
  induction l with
  | nil => exact List.Pairwise.nil
  | cons c cs ih => exact insertLe_sorted c (sortByName cs) ih

lemma insertLe_filter_key_eq (a : Contact) (l : List Contact) (k : List Char)
    (ha : nameKey a = k) :
    (insertLe a l).filter (fun c => decide (nameKey c = k)) =
      a :: l.filter (fun c => decide (nameKey c = k)) := by
  induction l with
  | nil => simp [insertLe, List.filter, ha]
  | cons b bs ih =>
    by_cases hab : contactLe a b = true
    · simp only [insertLe, if_pos hab, List.filter_cons, decide_eq_true_eq, ha, if_pos rfl]
      simp
    · have hbk : ¬ nameKey b = k := by
        rw [← ha]
        exact nameKey_ne_of_not_le a b hab
      simp only [insertLe, if_neg hab, List.filter_cons, decide_eq_true_eq, hbk,
        if_neg hbk, ih]
      simp [hbk]

lemma insertLe_filter_key_ne (a : Contact) (l : List Contact) (k : List Char)
    (ha : ¬ nameKey a = k) :
    (insertLe a l).filter (fun c => decide (nameKey c = k)) =
      l.filter (fun c => decide (nameKey c = k)) := by
  induction l with
  | nil => simp [insertLe, List.filter, ha]
  | cons b bs ih =>
    by_cases hab : contactLe a b = true
    · simp [insertLe, if_pos hab, List.filter_cons, ha]
    · simp only [insertLe, if_neg hab, List.filter_cons, ih]

lemma sortByName_filter_key (l : List Contact) (k : List Char) :
    (sortByName l).filter (fun c => decide (nameKey c = k)) =
      l.filter (fun c => decide (nameKey c = k)) := by
  induction l with
  | nil => rfl
  | cons c cs ih =>
    by_cases hc : nameKey c = k
    · rw [sortByName, insertLe_filter_key_eq c (sortByName cs) k hc, ih,
        List.filter_cons, if_pos (by simp [hc])]
    · rw [sortByName, insertLe_filter_key_ne c (sortByName cs) k hc, ih,
        List.filter_cons, if_neg (by simp [hc])]

/-- C8: `list_contacts` returns exactly the stored contacts (a
permutation), sorted by the case-insensitively lowered name, and stably
so: within each group of contacts whose lowered names are equal, the
original insertion order of the store is preserved. -/
theorem list_contacts_sorted_stable :
    ∀ m : ContactManager,
      (list_contacts m).Perm m.contacts ∧
      (list_contacts m).Pairwise (fun a b => contactLe a b = true) ∧
      ∀ k, (list_contacts m).filter (fun c => decide (nameKey c = k)) =
        m.contacts.filter (fun c => decide (nameKey c = k)) := by
  intro m
  exact ⟨sortByName_perm m.contacts, sortByName_sorted m.contacts,
    fun k => sortByName_filter_key m.contacts k⟩

lemma containsSub_nil (s : List Char) : containsSub [] s = true := by
  cases s <;> simp [containsSub, List.isPrefixOf]

lemma contactMatches_nil (c : Contact) : contactMatches [] c = true := by
  simp [contactMatches, containsSub_nil]

/-- C7: `search_contacts` returns exactly the stored contacts for which
the lowercased query occurs in the lowercased name, email, phone, company
or notes field, ordered exactly as `list_contacts` orders that subset;
the empty query returns the full `list_contacts` listing. -/
theorem search_contacts_spec :
    ∀ (m : ContactManager) (q : String),
      search_contacts m q =
        list_contacts
          ⟨m.contacts.filter (contactMatches (q.data.map Char.toLower)), m.next_id⟩ ∧
      (∀ c, c ∈ search_contacts m q ↔
        c ∈ m.contacts ∧ contactMatches (q.data.map Char.toLower) c = true) ∧
      search_contacts m "" = list_contacts m := by
  intro m q
  refine ⟨rfl, fun c => ?_, ?_⟩
  · unfold search_contacts
    rw [mem_sortByName, List.mem_filter]
  · unfold search_contacts list_contacts
    have : m.contacts.filter (contactMatches (("" : String).data.map Char.toLower)) =
        m.contacts := by
      refine List.filter_eq_self.mpr ?_
      intro c _
      exact contactMatches_nil c
    rw [this]

lemma takeWhile_until_newline (l r : List Char) (h : ∀ c ∈ l, ¬ c = '\n') :
    (l ++ '\n' :: r).takeWhile (fun c => decide (c ≠ '\n')) = l := by
  induction l with
  | nil => simp [List.takeWhile_cons]
  | cons x xs ih =>
    have hx : ¬ x = '\n' := h x (by simp)
    simp only [List.cons_append, List.takeWhile_cons, decide_eq_true_eq, ne_eq, hx,
      not_false_eq_true, if_true]
    rw [ih (fun c hc => h c (by simp [hc]))]

lemma firstLine_of_headline (x r : String) (hx : x.data.all (fun c => decide (c ≠ '\n')) = true) :
    firstLine (x ++ "\n" ++ r) = x := by
  unfold firstLine
  have hdata : (x ++ "\n" ++ r).data = x.data ++ '\n' :: r.data := by
    rw [String.data_append, String.data_append, List.append_assoc]
    rfl
  rw [hdata, takeWhile_until_newline]
  · intro c hc
    have := List.all_eq_true.mp hx c hc
    simpa using this

/-- C9: `export_contacts` raises on every format other than `"json"` and
`"csv"`; the CSV export of an empty store is the literal string `"No
contacts to export"` (no header); and on a non-empty store the first line
of the CSV export is exactly the fixed header row. -/
theorem export_contacts_spec :
    (∀ (m : ContactManager) (fmt : String), fmt ≠ "json" → fmt ≠ "csv" →
      export_contacts m fmt = Except.error "Unsupported export format") ∧
    (∀ m : ContactManager, m.contacts = [] →
      export_contacts m "csv" = Except.ok "No contacts to export") ∧
    (∀ (m : ContactManager) (s : String), m.contacts ≠ [] →
      export_contacts m "csv" = Except.ok s →
      firstLine s = "ID,Name,Email,Phone,Company,Address,Notes,Created") := by
  refine ⟨?_, ?_, ?_⟩
  · intro m fmt h1 h2
    unfold export_contacts
    rw [if_neg h1, if_neg h2]
  · intro m h
    unfold export_contacts
    rw [if_neg (by decide), if_pos rfl, if_pos h]
  · intro m s hne hexp
    obtain ⟨c, cs, hcs⟩ : ∃ c cs, m.contacts = c :: cs := by
      cases hmc : m.contacts with
      | nil => exact absurd hmc hne
      | cons c cs => exact ⟨c, cs, rfl⟩
    unfold export_contacts at hexp
    rw [if_neg (by decide), if_pos rfl, if_neg hne] at hexp
    have hs : s = joinSep "\n" (joinSep "," csvHeaders :: m.contacts.map csvRow) := by
      cases hexp
      rfl
    rw [hs, hcs, List.map_cons]
    show firstLine (joinSep "," csvHeaders ++ "\n" ++
      joinSep "\n" (csvRow c :: cs.map csvRow)) = _
    rw [firstLine_of_headline _ _ (by decide)]
    rfl

/-- C9 witness: the theorem at concrete inputs — an unknown format
`"xml"` raises, the empty store exports the literal sentence, and a
one-contact store's CSV starts with the header line. -/
theorem export_contacts_spec_witness :
    export_contacts ContactManager.fresh "xml" = Except.error "Unsupported export format" ∧
    export_contacts ContactManager.fresh "csv" = Except.ok "No contacts to export" ∧
    firstLine (joinSep "\n" (joinSep "," csvHeaders ::
      ([(⟨1, "Bob", "", "", "", "", "", "t", "t"⟩ : Contact)]).map csvRow)) =
      "ID,Name,Email,Phone,Company,Address,Notes,Created" := by
  refine ⟨export_contacts_spec.1 ContactManager.fresh "xml" (by decide) (by decide),
    export_contacts_spec.2.1 ContactManager.fresh rfl,
    export_contacts_spec.2.2 ⟨[⟨1, "Bob", "", "", "", "", "", "t", "t"⟩], 2⟩ _
      (by simp) rfl⟩

lemma byLetterAcc_isSome_iff (cs : List Contact) (acc : List (Char × Nat)) :
    (byLetterAcc cs acc).isSome = true ↔ ∀ c ∈ cs, c.name ≠ "" := by
  induction cs generalizing acc with
  | nil => simp [byLetterAcc]
  | cons c rest ih =>
    cases hn : c.name.data with
    | nil =>
      have hempty : c.name = "" := by
        cases hcn : c.name
        rw [hcn] at hn
        simp at hn
        rw [hn]
      simp only [byLetterAcc, hn, Option.isSome_none, Bool.false_eq_true, false_iff]
      intro hall
      exact hall c (by simp) hempty
    | cons ch chs =>
      have hnonempty : c.name ≠ "" := by
        intro hcn
        rw [hcn] at hn
        cases hn
      simp only [byLetterAcc, hn, ih]
      constructor
      · intro hall x hx
        rcases List.mem_cons.mp hx with hx | hx
        · exact hx ▸ hnonempty
        · exact hall x hx
      · intro hall x hx
        exact hall x (by simp [hx])

/-- C10: `get_stats` succeeds exactly when every stored contact has a
non-empty name — the `contact['name'][0]` access in the by-first-letter
grouping is in range for every contact iff no stored name is empty. -/
theorem get_stats_total_iff :
    ∀ m : ContactManager,
      (get_stats m).isSome = true ↔ ∀ c ∈ m.contacts, c.name ≠ "" := by
  intro m
  unfold get_stats
  have h := byLetterAcc_isSome_iff m.contacts []
  cases hbl : byLetterAcc m.contacts [] with
  | none =>
    rw [hbl] at h
    simpa using h
  | some bl =>
    rw [hbl] at h
    simpa using h

/-- C10 witness: `get_stats` succeeds on a store whose single contact has
the non-empty name "Bob", by the theorem's right-to-left direction. -/
theorem get_stats_total_iff_witness :
    (get_stats ⟨[⟨1, "Bob", "", "", "", "", "", "t", "t"⟩], 2⟩).isSome = true := by
  exact (get_stats_total_iff ⟨[⟨1, "Bob", "", "", "", "", "", "t", "t"⟩], 2⟩).mpr (by decide)

end ContactApp
